import Mathlib

/-!
Verification of the lobbying-registrations ETL pipeline
(src/etl/lobbying.py, lobbying_enhanced.py, lobbying_rest.py, lobbying_unified.py).

The Python sources are shallowly embedded as executable Lean definitions:
strings are `String`/`List Char`, CSV rows are `List String`, datetimes are a
record ordered through a monotone numeric key, the staging table and its DDL
are explicit state, and the HTTP loader is a state-passing loop whose server
responses are an oracle `Nat → Bool`.  Character classes of the regexes in
`snake_case` are modelled over ASCII (the data headers are ASCII); the Python
class `\w` becomes `[A-Za-z0-9_]`, `\s` becomes the four ASCII whitespace
characters of `Char.isWhitespace`, and `str.lower` becomes `Char.toLower`.
-/

/-! ## Column-name normalization (`snake_case` in all three ETL modules)

The source performs, in order:
  1. `re.sub(r"[^\w\s]", "_", name)`   (every char that is neither a word
     char nor whitespace becomes an underscore)
  2. `re.sub(r"\s+", "_", name)`       (every maximal whitespace run becomes
     one underscore)
  3. `name.lower()`
  4. `re.sub(r"_+", "_", name)`        (every maximal underscore run becomes
     one underscore)
  5. `name.strip("_")`                 (leading/trailing underscores removed)
-/

/-- Model of the Python regex class `\w` restricted to ASCII: `[A-Za-z0-9_]`. -/
def isWordChar (c : Char) : Bool :=
  (48 ≤ c.toNat && c.toNat ≤ 57) || (65 ≤ c.toNat && c.toNat ≤ 90) ||
  (97 ≤ c.toNat && c.toNat ≤ 122) || c.toNat == 95

/-- Step 1 of `snake_case`: `re.sub(r"[^\w\s]", "_", name)` as a character map. -/
def substNonWord (l : List Char) : List Char :=
  l.map (fun c => if isWordChar c || c.isWhitespace then c else '_')

/-- Worker for `replaceRuns`; the flag records whether the previous character
belonged to the run currently being replaced. -/
def replaceRunsAux (p : Char → Bool) : Bool → List Char → List Char
  | _, [] => []
  | inRun, c :: cs =>
    if p c then
      (if inRun then replaceRunsAux p true cs else '_' :: replaceRunsAux p true cs)
    else c :: replaceRunsAux p false cs

/-- Model of `re.sub(r"X+", "_", name)`: every maximal run of characters
satisfying `p` is replaced by a single underscore. -/
def replaceRuns (p : Char → Bool) (l : List Char) : List Char :=
  replaceRunsAux p false l

/-- Step 2 of `snake_case`: `re.sub(r"\s+", "_", name)`. -/
def substSpaceRuns (l : List Char) : List Char :=
  replaceRuns Char.isWhitespace l

/-- Step 3 of `snake_case`: `name.lower()` (ASCII model). -/
def lowerAll (l : List Char) : List Char :=
  l.map Char.toLower

/-- Step 4 of `snake_case`: `re.sub(r"_+", "_", name)`. -/
def collapseUnderscores (l : List Char) : List Char :=
  replaceRuns (fun c => c == '_') l

/-- Removal of trailing underscores (the right half of `name.strip("_")`). -/
def dropTrailingUnderscores : List Char → List Char
  | [] => []
  | c :: cs =>
    match dropTrailingUnderscores cs with
    | [] => if c == '_' then [] else [c]
    | r => c :: r

/-- Step 5 of `snake_case`: `name.strip("_")`. -/
def stripUnderscores (l : List Char) : List Char :=
  dropTrailingUnderscores (l.dropWhile (fun c => c == '_'))

/-- The five steps of `snake_case` on character lists, in source order. -/
def snakeChars (l : List Char) : List Char :=
  stripUnderscores (collapseUnderscores (lowerAll (substSpaceRuns (substNonWord l))))

/-- Embedding of `snake_case` from src/etl/lobbying.py (identical in
lobbying_enhanced.py and lobbying_rest.py). -/
def snake_case (s : String) : String :=
  ⟨snakeChars s.data⟩

/-! ### Character-level facts -/

theorem toNat_ofNat_small {n : Nat} (h : n < 55296) : (Char.ofNat n).toNat = n := by
  rw [Char.ofNat, dif_pos (Or.inl h)]
  rfl

theorem toNat_toLower (c : Char) :
    (Char.toLower c).toNat = if 65 ≤ c.toNat ∧ c.toNat ≤ 90 then c.toNat + 32 else c.toNat := by
  simp only [Char.toLower]
  split
  · next h => exact toNat_ofNat_small (by omega)
  · rfl

theorem isWordChar_toLower {c : Char} (h : isWordChar c = true) :
    isWordChar (Char.toLower c) = true := by
  simp only [isWordChar, Bool.or_eq_true, Bool.and_eq_true, decide_eq_true_eq, beq_iff_eq] at h ⊢
  have := toNat_toLower c
  split at this <;> omega

theorem toLower_toLower (c : Char) : Char.toLower (Char.toLower c) = Char.toLower c := by
  by_cases h : 65 ≤ c.toNat ∧ c.toNat ≤ 90
  · have h1 : (Char.toLower c).toNat = c.toNat + 32 := by rw [toNat_toLower, if_pos h]
    generalize hd : Char.toLower c = d
    rw [hd] at h1
    simp only [Char.toLower]
    rw [if_neg (by omega)]
  · have h1 : Char.toLower c = c := by
      simp only [Char.toLower]
      rw [if_neg (by omega)]
    rw [h1, h1]

theorem not_whitespace_of_word {c : Char} (h : isWordChar c = true) :
    c.isWhitespace = false := by
  have hne : c ≠ ' ' ∧ c ≠ '\t' ∧ c ≠ '\r' ∧ c ≠ '\n' := by
    refine ⟨?_, ?_, ?_, ?_⟩ <;> (intro hc; subst hc; exact absurd h (by decide))
  simp only [Char.isWhitespace, Bool.or_eq_false_iff, decide_eq_false_iff_not]
  exact ⟨⟨⟨hne.1, hne.2.1⟩, hne.2.2.1⟩, hne.2.2.2⟩

/-- Characters that may appear in a fully normalized name: ASCII word
characters that are fixed points of lowercasing. -/
def isNormChar (c : Char) : Bool :=
  isWordChar c && (Char.toLower c == c)

theorem isNormChar_underscore : isNormChar '_' = true := by decide

theorem isNormChar_toLower_of_word {c : Char} (h : isWordChar c = true) :
    isNormChar (Char.toLower c) = true := by
  simp only [isNormChar, Bool.and_eq_true, beq_iff_eq]
  exact ⟨isWordChar_toLower h, toLower_toLower c⟩

/-! ### Membership and shape lemmas for the normalization pipeline -/

theorem mem_replaceRunsAux {p : Char → Bool} {b : Bool} {l : List Char} {c : Char}
    (h : c ∈ replaceRunsAux p b l) : c = '_' ∨ (c ∈ l ∧ p c = false) := by
  induction l generalizing b with
  | nil => simp [replaceRunsAux] at h
  | cons a as ih =>
    simp only [replaceRunsAux] at h
    by_cases ha : p a
    · rw [if_pos ha] at h
      cases b with
      | true =>
        rcases ih h with h1 | h1
        · exact Or.inl h1
        · exact Or.inr ⟨List.mem_cons_of_mem a h1.1, h1.2⟩
      | false =>
        rcases List.mem_cons.mp h with h1 | h1
        · exact Or.inl h1
        · rcases ih h1 with h2 | h2
          · exact Or.inl h2
          · exact Or.inr ⟨List.mem_cons_of_mem a h2.1, h2.2⟩
    · rw [if_neg ha] at h
      rcases List.mem_cons.mp h with h1 | h1
      · exact Or.inr ⟨List.mem_cons.mpr (Or.inl h1), by rw [h1]; simpa using ha⟩
      · rcases ih h1 with h2 | h2
        · exact Or.inl h2
        · exact Or.inr ⟨List.mem_cons_of_mem a h2.1, h2.2⟩

theorem mem_dropTrailingUnderscores {l : List Char} {c : Char}
    (h : c ∈ dropTrailingUnderscores l) : c ∈ l := by
  induction l with
  | nil => simp [dropTrailingUnderscores] at h
  | cons a as ih =>
    simp only [dropTrailingUnderscores] at h
    cases hda : dropTrailingUnderscores as with
    | nil =>
      rw [hda] at h
      by_cases hc : a == '_'
      · rw [if_pos hc] at h
        simp at h
      · rw [if_neg hc] at h
        simp only [List.mem_singleton] at h
        simp [h]
    | cons x xs =>
      rw [hda] at h
      rcases List.mem_cons.mp h with h1 | h1
      · simp [h1]
      · exact List.mem_cons_of_mem a (ih (by rw [hda]; exact h1))

theorem mem_stripUnderscores {l : List Char} {c : Char}
    (h : c ∈ stripUnderscores l) : c ∈ l := by
  have h1 := mem_dropTrailingUnderscores h
  exact (List.dropWhile_sublist _).mem h1

theorem mem_snakeChars_isNormChar {l : List Char} {c : Char}
    (h : c ∈ snakeChars l) : isNormChar c = true := by
  have h1 := mem_stripUnderscores h
  rcases mem_replaceRunsAux h1 with h2 | h2
  · exact h2 ▸ isNormChar_underscore
  · rcases List.mem_map.mp h2.1 with ⟨d, hd, hdc⟩
    rcases mem_replaceRunsAux hd with h3 | h3
    · rw [← hdc, h3]
      decide
    · rcases List.mem_map.mp h3.1 with ⟨e, _, hed⟩
      have hword : isWordChar d = true := by
        by_cases he : isWordChar e || e.isWhitespace
        · rw [if_pos he] at hed
          have hde := hed ▸ he
          simp only [Bool.or_eq_true] at hde
          rcases hde with h4 | h4
          · exact h4
          · exact absurd h4 (by simp [h3.2])
        · rw [if_neg he] at hed
          rw [← hed]
          decide
      rw [← hdc]
      exact isNormChar_toLower_of_word hword

/-- Absence of two consecutive underscores. -/
def noDoubleUnderscore : List Char → Bool
  | [] => true
  | [_] => true
  | a :: b :: rest => !(a == '_' && b == '_') && noDoubleUnderscore (b :: rest)

theorem noDouble_tail {a : Char} {l : List Char}
    (h : noDoubleUnderscore (a :: l) = true) : noDoubleUnderscore l = true := by
  cases l with
  | nil => rfl
  | cons b bs =>
    simp only [noDoubleUnderscore, Bool.and_eq_true] at h
    exact h.2

theorem head_replaceRunsAux_true {p : Char → Bool} {l : List Char} {c : Char}
    (h : (replaceRunsAux p true l).head? = some c) : p c = false := by
  induction l with
  | nil => simp [replaceRunsAux] at h
  | cons a as ih =>
    simp only [replaceRunsAux] at h
    by_cases ha : p a
    · rw [if_pos ha, if_pos trivial] at h
      exact ih h
    · rw [if_neg ha] at h
      simp only [List.head?_cons, Option.some.injEq] at h
      rw [← h]
      simpa using ha

theorem noDouble_replaceRunsAux (l : List Char) :
    ∀ b, noDoubleUnderscore (replaceRunsAux (fun c => c == '_') b l) = true := by
  induction l with
  | nil => intro b; rfl
  | cons a as ih =>
    intro b
    by_cases ha : (a == '_') = true
    · simp only [replaceRunsAux]
      rw [if_pos ha]
      cases b with
      | true =>
        rw [if_pos rfl]
        exact ih true
      | false =>
        rw [if_neg (by decide)]
        cases hh : replaceRunsAux (fun c => c == '_') true as with
        | nil => rfl
        | cons x xs =>
          have hx : (x == '_') = false :=
            @head_replaceRunsAux_true (fun y => y == '_') as x (by rw [hh]; rfl)
          have := ih true
          rw [hh] at this
          simp only [noDoubleUnderscore, Bool.and_eq_true]
          refine ⟨by simp [hx], this⟩
    · simp only [replaceRunsAux]
      rw [if_neg (by simpa using ha)]
      cases hh : replaceRunsAux (fun c => c == '_') false as with
      | nil => rfl
      | cons x xs =>
        have hx : x = '_' ∨ (x ∈ as ∧ (x == '_') = false) :=
          mem_replaceRunsAux (by rw [hh]; exact List.mem_cons_self x xs)
        have := ih false
        rw [hh] at this
        simp only [noDoubleUnderscore, Bool.and_eq_true]
        refine ⟨by simp [ha], this⟩

theorem noDouble_dropWhile (p : Char → Bool) {l : List Char}
    (h : noDoubleUnderscore l = true) : noDoubleUnderscore (l.dropWhile p) = true := by
  induction l with
  | nil => rfl
  | cons a as ih =>
    cases hp : p a with
    | true =>
      simp only [List.dropWhile, hp]
      exact ih (noDouble_tail h)
    | false =>
      simp only [List.dropWhile, hp]
      exact h

theorem head_dropTrailingUnderscores {l : List Char} {x : Char} {xs : List Char}
    (h : dropTrailingUnderscores l = x :: xs) : ∃ ys, l = x :: ys := by
  cases l with
  | nil => simp [dropTrailingUnderscores] at h
  | cons a as =>
    simp only [dropTrailingUnderscores] at h
    cases hda : dropTrailingUnderscores as with
    | nil =>
      rw [hda] at h
      by_cases hc : (a == '_') = true
      · rw [if_pos hc] at h
        exact absurd h (by simp)
      · rw [if_neg hc] at h
        simp only [List.cons.injEq] at h
        exact ⟨as, by rw [h.1]⟩
    | cons y ys =>
      rw [hda] at h
      simp only [List.cons.injEq] at h
      exact ⟨as, by rw [h.1]⟩

theorem noDouble_dropTrailingUnderscores {l : List Char}
    (h : noDoubleUnderscore l = true) :
    noDoubleUnderscore (dropTrailingUnderscores l) = true := by
  induction l with
  | nil => rfl
  | cons a as ih =>
    simp only [dropTrailingUnderscores]
    cases hda : dropTrailingUnderscores as with
    | nil =>
      by_cases hc : (a == '_') = true
      · rw [if_pos hc]
        rfl
      · rw [if_neg hc]
        rfl
    | cons x xs =>
      have htail : noDoubleUnderscore (dropTrailingUnderscores as) = true :=
        ih (noDouble_tail h)
      rw [hda] at htail
      obtain ⟨ys, hys⟩ := head_dropTrailingUnderscores hda
      rw [hys] at h
      simp only [noDoubleUnderscore, Bool.and_eq_true] at h
      simp only [noDoubleUnderscore, Bool.and_eq_true]
      exact ⟨h.1, htail⟩

theorem head_dropWhile_not {p : Char → Bool} {l : List Char} {c : Char}
    (h : (l.dropWhile p).head? = some c) : p c = false := by
  induction l with
  | nil => simp [List.dropWhile] at h
  | cons a as ih =>
    cases hp : p a with
    | true =>
      simp only [List.dropWhile, hp] at h
      exact ih h
    | false =>
      simp only [List.dropWhile, hp, List.head?_cons, Option.some.injEq] at h
      rw [← h]
      exact hp

theorem getLast_dropTrailingUnderscores {l : List Char} {c : Char}
    (h : (dropTrailingUnderscores l).getLast? = some c) : (c == '_') = false := by
  induction l with
  | nil => simp [dropTrailingUnderscores] at h
  | cons a as ih =>
    simp only [dropTrailingUnderscores] at h
    cases hda : dropTrailingUnderscores as with
    | nil =>
      rw [hda] at h
      by_cases hc : (a == '_') = true
      · rw [if_pos hc] at h
        simp at h
      · rw [if_neg hc] at h
        simp only [List.getLast?_singleton, Option.some.injEq] at h
        rw [← h]
        simpa using hc
    | cons x xs =>
      rw [hda] at h
      rw [List.getLast?_cons_cons] at h
      exact ih (by rw [hda]; exact h)

theorem head_stripUnderscores {l : List Char} {c : Char}
    (h : (stripUnderscores l).head? = some c) : (c == '_') = false := by
  unfold stripUnderscores at h
  cases hout : dropTrailingUnderscores (l.dropWhile (fun d => d == '_')) with
  | nil =>
    rw [hout] at h
    simp at h
  | cons x xs =>
    rw [hout] at h
    simp only [List.head?_cons, Option.some.injEq] at h
    obtain ⟨ys, hys⟩ := head_dropTrailingUnderscores hout
    have hx : (x == '_') = false :=
      @head_dropWhile_not (fun d => d == '_') l x (by rw [hys]; rfl)
    rw [← h]
    exact hx

/-! ### Identity of each step on an already-normalized name -/

theorem map_id_of_mem {f : Char → Char} {l : List Char}
    (h : ∀ c ∈ l, f c = c) : l.map f = l := by
  induction l with
  | nil => rfl
  | cons a as ih =>
    simp only [List.map_cons]
    rw [h a (List.mem_cons_self a as), ih (fun c hc => h c (List.mem_cons_of_mem a hc))]

theorem replaceRunsAux_id {p : Char → Bool} {l : List Char}
    (h : ∀ c ∈ l, p c = false) : replaceRunsAux p false l = l := by
  induction l with
  | nil => rfl
  | cons a as ih =>
    simp only [replaceRunsAux]
    rw [if_neg (by simp [h a (List.mem_cons_self a as)])]
    rw [ih (fun c hc => h c (List.mem_cons_of_mem a hc))]

theorem collapseAux_id (l : List Char) (h : noDoubleUnderscore l = true) :
    replaceRunsAux (fun c => c == '_') false l = l ∧
    ((∀ d, l.head? = some d → (d == '_') = false) →
      replaceRunsAux (fun c => c == '_') true l = l) := by
  induction l with
  | nil => exact ⟨rfl, fun _ => rfl⟩
  | cons a as ih =>
    obtain ⟨ih1, ih2⟩ := ih (noDouble_tail h)
    constructor
    · by_cases ha : (a == '_') = true
      · simp only [replaceRunsAux]
        rw [if_pos ha, if_neg (by decide)]
        have ha' : a = '_' := by simpa using ha
        cases as with
        | nil => rw [ha']; rfl
        | cons x xs =>
          simp only [noDoubleUnderscore, Bool.and_eq_true, ha, Bool.true_and] at h
          have hx : (x == '_') = false := by
            simpa using h.1
          rw [ih2 (fun d hd => by
            simp only [List.head?_cons, Option.some.injEq] at hd
            rw [← hd]
            exact hx)]
          rw [ha']
      · simp only [replaceRunsAux]
        rw [if_neg (by simpa using ha)]
        rw [ih1]
    · intro hhead
      have ha : (a == '_') = false := hhead a rfl
      simp only [replaceRunsAux]
      rw [if_neg (by simp [ha])]
      rw [ih1]

theorem dropWhile_id {p : Char → Bool} {l : List Char}
    (h : ∀ d, l.head? = some d → p d = false) : l.dropWhile p = l := by
  cases l with
  | nil => rfl
  | cons a as =>
    simp only [List.dropWhile, h a rfl]

theorem dropTrailing_cons_of_ne_nil {a : Char} {as r : List Char}
    (h : dropTrailingUnderscores as = r) (hne : r ≠ []) :
    dropTrailingUnderscores (a :: as) = a :: r := by
  simp only [dropTrailingUnderscores]
  rw [h]
  cases r with
  | nil => exact absurd rfl hne
  | cons x xs => rfl

theorem dropTrailingUnderscores_id {l : List Char}
    (h : ∀ d, l.getLast? = some d → (d == '_') = false) :
    dropTrailingUnderscores l = l := by
  induction l with
  | nil => rfl
  | cons a as ih =>
    cases as with
    | nil =>
      have ha := h a rfl
      simp only [dropTrailingUnderscores]
      rw [if_neg (by simpa using ha)]
    | cons b bs =>
      have htail : dropTrailingUnderscores (b :: bs) = b :: bs :=
        ih (fun d hd => h d (by rw [List.getLast?_cons_cons]; exact hd))
      exact dropTrailing_cons_of_ne_nil htail (by simp)

/-! ### The normalization invariant and idempotence -/

theorem snakeChars_noDouble (l : List Char) :
    noDoubleUnderscore (snakeChars l) = true := by
  unfold snakeChars stripUnderscores
  exact noDouble_dropTrailingUnderscores
    (noDouble_dropWhile _ (noDouble_replaceRunsAux _ false))

theorem snakeChars_head (l : List Char) :
    ∀ d, (snakeChars l).head? = some d → (d == '_') = false := by
  intro d hd
  exact head_stripUnderscores hd

theorem snakeChars_last (l : List Char) :
    ∀ d, (snakeChars l).getLast? = some d → (d == '_') = false := by
  intro d hd
  exact getLast_dropTrailingUnderscores hd

theorem snakeChars_id {l : List Char}
    (hc : ∀ c ∈ l, isNormChar c = true)
    (hnd : noDoubleUnderscore l = true)
    (hh : ∀ d, l.head? = some d → (d == '_') = false)
    (hl : ∀ d, l.getLast? = some d → (d == '_') = false) :
    snakeChars l = l := by
  have hword : ∀ c ∈ l, isWordChar c = true := fun c hcm => by
    have := hc c hcm
    simp only [isNormChar, Bool.and_eq_true] at this
    exact this.1
  have hlow : ∀ c ∈ l, Char.toLower c = c := fun c hcm => by
    have := hc c hcm
    simp only [isNormChar, Bool.and_eq_true, beq_iff_eq] at this
    exact this.2
  have h1 : substNonWord l = l :=
    map_id_of_mem (fun c hcm => by rw [if_pos (by simp [hword c hcm])])
  have h2 : substSpaceRuns l = l :=
    replaceRunsAux_id (fun c hcm => not_whitespace_of_word (hword c hcm))
  have h3 : lowerAll l = l := map_id_of_mem hlow
  have h4 : collapseUnderscores l = l := (collapseAux_id l hnd).1
  have h5 : stripUnderscores l = l := by
    unfold stripUnderscores
    rw [dropWhile_id hh, dropTrailingUnderscores_id hl]
  unfold snakeChars substNonWord substSpaceRuns lowerAll collapseUnderscores at *
  rw [h1, h2, h3, h4, h5]

/-- Claim C7: the column-name normalization `snake_case` is idempotent — for
every string `s`, `snake_case (snake_case s) = snake_case s`. -/
theorem C7_snake_case_idempotent (s : String) :
    snake_case (snake_case s) = snake_case s := by
  show (⟨snakeChars (String.data ⟨snakeChars s.data⟩)⟩ : String) = ⟨snakeChars s.data⟩
  have hdata : String.data ⟨snakeChars s.data⟩ = snakeChars s.data := rfl
  rw [hdata]
  exact congrArg String.mk
    (snakeChars_id (fun c hcm => mem_snakeChars_isNormChar hcm)
      (snakeChars_noDouble _) (snakeChars_head _) (snakeChars_last _))

/-! ## Claim C8: normalization versus punctuation -/

/-- Characters matched by the regex class `[^\w\s]` of step 1 of
`snake_case` — the punctuation characters in the sense of the source. -/
def punctLike (c : Char) : Bool :=
  !(isWordChar c || c.isWhitespace)

/-- Equality up to in-place replacement of punctuation: both names have the
same length and at each position the characters are equal or are both
punctuation characters. -/
def punctEquiv : List Char → List Char → Bool
  | [], [] => true
  | a :: as, b :: bs => (a == b || (punctLike a && punctLike b)) && punctEquiv as bs
  | _, _ => false

theorem substNonWord_eq_of_punctEquiv :
    ∀ {l1 l2 : List Char}, punctEquiv l1 l2 = true → substNonWord l1 = substNonWord l2 := by
  intro l1
  induction l1 with
  | nil =>
    intro l2 h
    cases l2 with
    | nil => rfl
    | cons b bs => simp [punctEquiv] at h
  | cons a as ih =>
    intro l2 h
    cases l2 with
    | nil => simp [punctEquiv] at h
    | cons b bs =>
      simp only [punctEquiv, Bool.and_eq_true, Bool.or_eq_true] at h
      obtain ⟨hab, hrest⟩ := h
      have htail : List.map (fun c => if isWordChar c || c.isWhitespace then c else '_') as
          = List.map (fun c => if isWordChar c || c.isWhitespace then c else '_') bs := ih hrest
      unfold substNonWord
      rw [List.map_cons, List.map_cons, htail]
      rcases hab with hab | hab
      · rw [show a = b from by simpa using hab]
      · have ha : (isWordChar a || a.isWhitespace) = false := by
          simpa [punctLike] using hab.1
        have hb : (isWordChar b || b.isWhitespace) = false := by
          simpa [punctLike] using hab.2
        rw [if_neg (by simp [ha]), if_neg (by simp [hb])]

/-- Claim C8 counterexample: `"a.b"` and `"ab"` are distinct raw names, they
contain the same letters and digits in the same order, every character in
which they differ is a punctuation character (class `[^\w\s]`), yet
`snake_case` maps them to the different names `"a_b"` and `"ab"`.  Presence
versus absence of a punctuation character is therefore observable after
normalization, refuting the claim as stated. -/
theorem C8_counterexample :
    ("a.b" : String) ≠ "ab" ∧
    "a.b".data.filter Char.isAlphanum = "ab".data.filter Char.isAlphanum ∧
    (∀ c ∈ "a.b".data, Char.isAlphanum c = false → punctLike c = true) ∧
    (∀ c ∈ "ab".data, Char.isAlphanum c = false → punctLike c = true) ∧
    snake_case "a.b" ≠ snake_case "ab" := by
  refine ⟨by decide, by decide, by decide, by decide, by decide⟩

/-- Claim C8 (amended): two raw column names obtained from one another by
replacing punctuation characters with other punctuation characters in place
(equal length, equal characters at every non-punctuation position) normalize
to the identical name under `snake_case`. -/
theorem C8_amended_normalize_eq (s t : String)
    (h : punctEquiv s.data t.data = true) : snake_case s = snake_case t := by
  show (⟨snakeChars s.data⟩ : String) = ⟨snakeChars t.data⟩
  unfold snakeChars
  rw [substNonWord_eq_of_punctEquiv h]

/-- Witness for the amended C8 at concrete inputs: `"a.b"` and `"a:b"`
differ exactly in one punctuation character and normalize identically. -/
theorem C8_amended_witness : snake_case "a.b" = snake_case "a:b" :=
  C8_amended_normalize_eq "a.b" "a:b" (by decide)

/-! ## Dates and `datetime.strptime`

Model of the four formats tried by `filter_recent_rows`.  CPython strptime
matches `%Y` as exactly four digits, `%m` as one or two digits with value
1..12, `%d` as one or two digits with value 1..31, requires the whole string
to be consumed, and the `datetime` constructor then validates the year range
and the day against the month length (with leap years).  Comparison
`row_date >= CUTOFF_DATE` is full datetime order; parsed dates carry
midnight time, the cutoff an arbitrary time of day, captured by a lexicographic
numeric key. -/

structure DateTime where
  year : Nat
  month : Nat
  day : Nat
  sec : Nat
deriving DecidableEq

/-- Monotone lexicographic key: datetime comparison as `Nat` comparison
(month below 13, day below 32, second-of-day below 86400 keep it faithful). -/
def dtKey (t : DateTime) : Nat :=
  ((t.year * 13 + t.month) * 32 + t.day) * 86400 + t.sec

structure PDate where
  year : Nat
  month : Nat
  day : Nat
deriving DecidableEq

/-- A parsed date is a datetime at midnight (strptime default). -/
def dtOfDate (d : PDate) : DateTime :=
  ⟨d.year, d.month, d.day, 0⟩

def digitVal (c : Char) : Nat :=
  c.toNat - 48

/-- Matcher for `%Y`: exactly four digits. -/
def read4Digits : List Char → Option (Nat × List Char)
  | a :: b :: c :: d :: rest =>
    if a.isDigit && b.isDigit && c.isDigit && d.isDigit then
      some (((digitVal a * 10 + digitVal b) * 10 + digitVal c) * 10 + digitVal d, rest)
    else none
  | _ => none

/-- Matcher for `%m` (hi = 12) and `%d` (hi = 31): one or two digits; a
two-digit read is kept when its value is in range, otherwise the single
leading digit 1..9 is consumed (mirroring the regex alternatives of
CPython strptime, whose leftover digit then fails the following literal). -/
def read1or2 (hi : Nat) : List Char → Option (Nat × List Char)
  | a :: b :: rest =>
    if a.isDigit && b.isDigit then
      (if 1 ≤ digitVal a * 10 + digitVal b ∧ digitVal a * 10 + digitVal b ≤ hi then
        some (digitVal a * 10 + digitVal b, rest)
      else if 1 ≤ digitVal a ∧ digitVal a ≤ 9 then some (digitVal a, b :: rest)
      else none)
    else if a.isDigit && (1 ≤ digitVal a && digitVal a ≤ 9) then some (digitVal a, b :: rest)
    else none
  | [a] =>
    if a.isDigit && (1 ≤ digitVal a && digitVal a ≤ 9) then some (digitVal a, [])
    else none
  | [] => none

def expectChar (c : Char) : List Char → Option (List Char)
  | x :: rest => if x = c then some rest else none
  | [] => none

def isLeapYear (y : Nat) : Bool :=
  y % 4 == 0 && (y % 100 != 0 || y % 400 == 0)

def daysInMonth (y m : Nat) : Nat :=
  match m with
  | 1 => 31
  | 2 => if isLeapYear y then 29 else 28
  | 3 => 31
  | 4 => 30
  | 5 => 31
  | 6 => 30
  | 7 => 31
  | 8 => 31
  | 9 => 30
  | 10 => 31
  | 11 => 30
  | 12 => 31
  | _ => 0

/-- Validation done by the `datetime` constructor after strptime matching. -/
def mkValidDate (y m d : Nat) : Option PDate :=
  if 1 ≤ y ∧ y ≤ 9999 ∧ 1 ≤ d ∧ d ≤ daysInMonth y m then some ⟨y, m, d⟩ else none

/-- Formats `%Y-%m-%d` (sep `-`) and `%Y/%m/%d` (sep `/`). -/
def parseYMD (sep : Char) (l : List Char) : Option PDate := do
  let (y, r1) ← read4Digits l
  let r2 ← expectChar sep r1
  let (m, r3) ← read1or2 12 r2
  let r4 ← expectChar sep r3
  let (d, r5) ← read1or2 31 r4
  if r5.isEmpty then mkValidDate y m d else none

/-- Format `%m/%d/%Y`. -/
def parseMDY (l : List Char) : Option PDate := do
  let (m, r1) ← read1or2 12 l
  let r2 ← expectChar '/' r1
  let (d, r3) ← read1or2 31 r2
  let r4 ← expectChar '/' r3
  let (y, r5) ← read4Digits r4
  if r5.isEmpty then mkValidDate y m d else none

/-- Format `%d/%m/%Y`. -/
def parseDMY (l : List Char) : Option PDate := do
  let (d, r1) ← read1or2 31 l
  let r2 ← expectChar '/' r1
  let (m, r3) ← read1or2 12 r2
  let r4 ← expectChar '/' r3
  let (y, r5) ← read4Digits r4
  if r5.isEmpty then mkValidDate y m d else none

/-- The `for fmt in [...]` loop of `filter_recent_rows`: the four formats
are tried in source order and the first success wins. -/
def parseAnyFmt (s : String) : Option PDate :=
  match parseYMD '-' s.data with
  | some d => some d
  | none =>
    match parseYMD '/' s.data with
    | some d => some d
    | none =>
      match parseMDY s.data with
      | some d => some d
      | none => parseDMY s.data

/-! ## Locating the date column and filtering rows
(`filter_recent_rows` in src/etl/lobbying.py; the heuristic part is textually
identical in lobbying_enhanced.py and lobbying_rest.py) -/

/-- The date keywords of the source, in order. -/
def dateTerms : List String :=
  ["date", "created", "registered", "filed"]

/-- Model of `str.lower` over a whole string (ASCII). -/
def lowerStr (s : String) : String :=
  ⟨s.data.map Char.toLower⟩

/-- Test that the first list is a prefix of the second. -/
def startsWithChars : List Char → List Char → Bool
  | [], _ => true
  | _ :: _, [] => false
  | a :: as, b :: bs => a == b && startsWithChars as bs

/-- Model of the Python substring operator `in` on strings. -/
def containsChars (needle : List Char) : List Char → Bool
  | [] => needle.isEmpty
  | b :: bs => startsWithChars needle (b :: bs) || containsChars needle bs

/-- Condition `any(date_term in header.lower() for date_term in [...])`. -/
def hasDateKeyword (h : String) : Bool :=
  dateTerms.any (fun t => containsChars t.data (lowerStr h).data)

/-- The `for i, header in enumerate(headers)` search loop. -/
def findDateColAux (i : Nat) : List String → Option Nat
  | [] => none
  | h :: rest => if hasDateKeyword h then some i else findDateColAux (i + 1) rest

/-- Index of the first column whose name contains a date keyword. -/
def findDateCol (headers : List String) : Option Nat :=
  findDateColAux 0 headers

/-- Decision for one data row when a date column at index `i` was found:
rows with at most `i` fields are skipped; otherwise the date string is
parsed and compared against the cutoff, and an unparseable value passes
through. -/
def rowEmit (cutoff : DateTime) (i : Nat) (row : List String) : Bool :=
  if i < row.length then
    match parseAnyFmt (row.getD i "") with
    | some d => decide (dtKey cutoff ≤ dtKey (dtOfDate d))
    | none => true
  else false

/-- The row loop of `filter_recent_rows`, also tracking the two counters
`filtered_count` and `total_count` printed by the source. -/
def filterLoop (cutoff : DateTime) (i : Nat) :
    List (List String) → List (List String) × Nat × Nat
  | [] => ([], 0, 0)
  | row :: rest =>
    let r := filterLoop cutoff i rest
    if rowEmit cutoff i row then (row :: r.1, r.2.1 + 1, r.2.2 + 1)
    else (r.1, r.2.1, r.2.2 + 1)

/-- Embedding of `filter_recent_rows(csv_path, headers)` (heuristic variant):
the sequence of yielded rows, as a function of the cutoff instant (the
module-level `CUTOFF_DATE`, fixed once per run), the normalized headers and
the data rows of the CSV.  When no date column is found all rows are yielded
unchanged (the source prints a warning and does not fail). -/
def filter_recent_rows (cutoff : DateTime) (headers : List String)
    (rows : List (List String)) : List (List String) :=
  match findDateCol headers with
  | none => rows
  | some i => (filterLoop cutoff i rows).1

theorem filterLoop_fst (cutoff : DateTime) (i : Nat) (rows : List (List String)) :
    (filterLoop cutoff i rows).1 = rows.filter (rowEmit cutoff i) := by
  induction rows with
  | nil => rfl
  | cons row rest ih =>
    simp only [filterLoop, List.filter_cons]
    cases he : rowEmit cutoff i row with
    | true => simp [ih]
    | false => simp [ih]

theorem filterLoop_total (cutoff : DateTime) (i : Nat) (rows : List (List String)) :
    (filterLoop cutoff i rows).2.2 = rows.length := by
  induction rows with
  | nil => rfl
  | cons row rest ih =>
    simp only [filterLoop, List.length_cons]
    cases he : rowEmit cutoff i row with
    | true => simp [ih]
    | false => simp [ih]

/-- Spec-side inclusion policy of the heuristic variant, phrased from the
spec text: try the four formats in order; on success include the row exactly
when the parsed date is at or after the cutoff; when no format parses,
include the row. -/
def specIncludedB (cutoff : DateTime) (v : String) : Bool :=
  match parseAnyFmt v with
  | some d => decide (dtKey cutoff ≤ dtKey (dtOfDate d))
  | none => true

theorem rowEmit_eq_specIncludedB {cutoff : DateTime} {i : Nat} {row : List String}
    (hlen : i < row.length) :
    rowEmit cutoff i row = specIncludedB cutoff (row.getD i "") := by
  unfold rowEmit specIncludedB
  rw [if_pos hlen]

/-- Claim C1: in the heuristic variant, with the date column located at
index `i` and for a data row having a value at that index, the row is
emitted iff its date value, parsed by trying the four formats
`%Y-%m-%d`, `%Y/%m/%d`, `%m/%d/%Y`, `%d/%m/%Y` in order (first success
wins, as embedded in `parseAnyFmt`), is at or after the single fixed
per-run cutoff; when no format parses — including the empty string and the
literal `"null"` — the row is emitted.  The cutoff is one fixed parameter
for the whole run, not recomputed per row. -/
theorem C1_heuristic_filter_policy (cutoff : DateTime) (headers : List String)
    (rows : List (List String)) (i : Nat) (row : List String)
    (hcol : findDateCol headers = some i) (hlen : i < row.length) :
    (row ∈ filter_recent_rows cutoff headers rows ↔
      row ∈ rows ∧ specIncludedB cutoff (row.getD i "") = true) ∧
    parseAnyFmt "" = none ∧ parseAnyFmt "null" = none := by
  refine ⟨?_, by decide, by decide⟩
  have hfr : filter_recent_rows cutoff headers rows = (filterLoop cutoff i rows).1 := by
    unfold filter_recent_rows
    rw [hcol]
  rw [hfr, filterLoop_fst, List.mem_filter, rowEmit_eq_specIncludedB hlen]

/-- Witness for C1 at concrete inputs: with cutoff 2024-01-01 the row
`["2099-01-01"]` is emitted. -/
theorem C1_witness :
    ["2099-01-01"] ∈ filter_recent_rows ⟨2024, 1, 1, 0⟩ ["effective_date"] [["2099-01-01"]] :=
  ((C1_heuristic_filter_policy ⟨2024, 1, 1, 0⟩ ["effective_date"] [["2099-01-01"]]
      0 ["2099-01-01"] (by decide) (by decide)).1).mpr ⟨by decide, by decide⟩

theorem findDateColAux_none :
    ∀ (hs : List String) (i : Nat), (∀ h ∈ hs, hasDateKeyword h = false) →
      findDateColAux i hs = none := by
  intro hs
  induction hs with
  | nil => intro i _; rfl
  | cons h rest ih =>
    intro i hall
    simp only [findDateColAux]
    rw [if_neg (by simp [hall h (List.mem_cons_self h rest)])]
    exact ih (i + 1) (fun x hx => hall x (List.mem_cons_of_mem h hx))

/-- Claim C6: the date column is located as the first column whose
normalized name contains one of the substrings `date`, `created`,
`registered`, `filed` (the search loop `findDateCol`); when no column name
contains any of the keywords, every data row is emitted unchanged — the
source prints a warning and the run proceeds (the filter is total and
returns the full row list). -/
theorem C6_no_date_column_passthrough (cutoff : DateTime) (headers : List String)
    (rows : List (List String))
    (h : ∀ hd ∈ headers, hasDateKeyword hd = false) :
    findDateCol headers = none ∧ filter_recent_rows cutoff headers rows = rows := by
  have hc : findDateCol headers = none := findDateColAux_none headers 0 h
  refine ⟨hc, ?_⟩
  unfold filter_recent_rows
  rw [hc]


/-- Witness for C6 at concrete inputs: headers without any date keyword let
every row through. -/
theorem C6_witness :
    filter_recent_rows ⟨2024, 1, 1, 0⟩ ["reg_id_enr", "country_pays"] [["a", "b"], ["c"]]
      = [["a", "b"], ["c"]] :=
  (C6_no_date_column_passthrough ⟨2024, 1, 1, 0⟩ ["reg_id_enr", "country_pays"]
    [["a", "b"], ["c"]] (by decide)).2

theorem rowEmit_length {cutoff : DateTime} {i : Nat} {row : List String}
    (h : rowEmit cutoff i row = true) : i < row.length := by
  unfold rowEmit at h
  by_cases hlen : i < row.length
  · exact hlen
  · rw [if_neg hlen] at h
    exact absurd h (by simp)

/-- Claim C10: in the heuristic variant with the date column at index `i`,
every emitted row has more than `i` fields; a data row with at most `i`
fields is never emitted even though unparseable dates are otherwise
included, while the total-row counter still counts it. -/
theorem C10_short_rows_dropped (cutoff : DateTime) (headers : List String)
    (rows : List (List String)) (i : Nat)
    (hcol : findDateCol headers = some i) :
    (∀ row ∈ filter_recent_rows cutoff headers rows, i < row.length) ∧
    (∀ row, row.length ≤ i → row ∉ filter_recent_rows cutoff headers rows) ∧
    (filterLoop cutoff i rows).2.2 = rows.length := by
  have hmem : ∀ row ∈ filter_recent_rows cutoff headers rows, i < row.length := by
    intro row hrow
    have hfr : filter_recent_rows cutoff headers rows = (filterLoop cutoff i rows).1 := by
      unfold filter_recent_rows
      rw [hcol]
    rw [hfr, filterLoop_fst] at hrow
    exact rowEmit_length (List.mem_filter.mp hrow).2
  refine ⟨hmem, ?_, filterLoop_total cutoff i rows⟩
  intro row hshort hrow
  exact absurd (hmem row hrow) (by omega)

/-- Witness for C10 at concrete inputs: the empty row is scanned (total
count 2) but not emitted. -/
theorem C10_witness :
    ([] ∉ filter_recent_rows ⟨2024, 1, 1, 0⟩ ["date"] [[], ["2099-01-01"]]) ∧
    (filterLoop ⟨2024, 1, 1, 0⟩ 0 [[], ["2099-01-01"]]).2.2 = 2 :=
  ⟨(C10_short_rows_dropped ⟨2024, 1, 1, 0⟩ ["date"] [[], ["2099-01-01"]] 0
      (by decide)).2.1 [] (by decide),
   (C10_short_rows_dropped ⟨2024, 1, 1, 0⟩ ["date"] [[], ["2099-01-01"]] 0
      (by decide)).2.2⟩

/-! ## The staging table and its DDL
(`create_staging_table` in src/etl/lobbying.py and
`ConnectionManager._create_table_postgres` in src/etl/lobbying_enhanced.py) -/

/-- The SQL statements occurring in the generated scripts. -/
inductive SqlStmt where
  | dropTableIfExists : SqlStmt
  | createTable (cols : List String) : SqlStmt
  | createIndexIfNotExists (idxName : String) (col : String) : SqlStmt
deriving DecidableEq

structure PgTable where
  cols : List String
  rows : List (List String)
  indexes : List String
deriving DecidableEq

/-- Execution of one statement against the (possibly absent) table.
`none` models a SQL error aborting the script: creating an existing table,
or indexing a column that does not exist. `IF NOT EXISTS` guards the index
NAME only, exactly as in PostgreSQL. -/
def execStmt (db : Option PgTable) : SqlStmt → Option (Option PgTable)
  | .dropTableIfExists => some none
  | .createTable cols =>
    match db with
    | some _ => none
    | none => some (some ⟨cols, [], []⟩)
  | .createIndexIfNotExists n col =>
    match db with
    | none => none
    | some t =>
      if col ∈ t.cols then
        (if n ∈ t.indexes then some (some t)
        else some (some { t with indexes := t.indexes ++ [n] }))
      else none

/-- Sequential execution of a script; any error aborts the whole script. -/
def execScript (db : Option PgTable) : List SqlStmt → Option (Option PgTable)
  | [] => some db
  | s :: rest =>
    match execStmt db s with
    | none => none
    | some db2 => execScript db2 rest

/-- The script of `create_staging_table` (src/etl/lobbying.py lines 164-183):
`DROP TABLE IF EXISTS lobby_staging; CREATE TABLE lobby_staging (col TEXT, ...)`. -/
def create_staging_table_sql (headers : List String) : List SqlStmt :=
  [.dropTableIfExists, .createTable headers]

/-- The script of `ConnectionManager._create_table_postgres`
(src/etl/lobbying_enhanced.py lines 282-302): drop, create, and two
unconditional `CREATE INDEX IF NOT EXISTS` statements on the fixed column
names `reg_id_enr` and `country_pays`. -/
def create_table_sql_enhanced (headers : List String) : List SqlStmt :=
  [.dropTableIfExists, .createTable headers,
   .createIndexIfNotExists "idx_lobby_staging_reg_id" "reg_id_enr",
   .createIndexIfNotExists "idx_lobby_staging_country" "country_pays"]

/-- COPY FROM STDIN appends the serialized rows to the table. -/
def copyRows (t : PgTable) (rows : List (List String)) : PgTable :=
  { t with rows := t.rows ++ rows }

/-- One run of the plain PostgreSQL variant after extraction: create the
staging table from the normalized headers, then stream the filtered rows
into it (src/etl/lobbying.py `stream_to_supabase`). -/
def pgRunPlain (db : Option PgTable) (cutoff : DateTime) (headers : List String)
    (rows : List (List String)) : Option PgTable :=
  match execScript db (create_staging_table_sql headers) with
  | some (some t) => some (copyRows t (filter_recent_rows cutoff headers rows))
  | _ => none

theorem pgRunPlain_eq (db : Option PgTable) (cutoff : DateTime) (headers : List String)
    (rows : List (List String)) :
    pgRunPlain db cutoff headers rows
      = some ⟨headers, filter_recent_rows cutoff headers rows, []⟩ := by
  rfl

theorem execStmt_createIndex_shape {T : PgTable} {n col : String} {db2 : Option PgTable}
    (h : execStmt (some T) (.createIndexIfNotExists n col) = some db2) :
    ∃ t1, db2 = some t1 ∧ t1.cols = T.cols ∧ t1.rows = T.rows := by
  simp only [execStmt] at h
  by_cases h1 : col ∈ T.cols
  · rw [if_pos h1] at h
    by_cases h2 : n ∈ T.indexes
    · rw [if_pos h2] at h
      injection h with h
      exact ⟨T, h.symm, rfl, rfl⟩
    · rw [if_neg h2] at h
      injection h with h
      exact ⟨{ T with indexes := T.indexes ++ [n] }, h.symm, rfl, rfl⟩
  · rw [if_neg h1] at h
    exact absurd h (by simp)

theorem execScript_indexes_cols :
    ∀ (stmts : List SqlStmt),
      (∀ s ∈ stmts, ∃ n c, s = SqlStmt.createIndexIfNotExists n c) →
      ∀ (T t : PgTable), execScript (some T) stmts = some (some t) → t.cols = T.cols := by
  intro stmts
  induction stmts with
  | nil =>
    intro _ T t h
    simp only [execScript, Option.some.injEq] at h
    rw [← h]
  | cons st rest ih =>
    intro hsh T t h
    obtain ⟨n, c, hst⟩ := hsh st (List.mem_cons_self st rest)
    cases he : execStmt (some T) st with
    | none =>
      simp only [execScript, he] at h
      exact absurd h (by simp)
    | some db2 =>
      rw [hst] at he
      obtain ⟨t1, hdb2, hc1, _⟩ := execStmt_createIndex_shape he
      simp only [execScript, hst ▸ he, hdb2] at h
      rw [ih (fun s hs => hsh s (List.mem_cons_of_mem st hs)) t1 t h, hc1]

/-- Claim C4: in every run whose table creation succeeds, the column list of
the created table equals, in order, the normalized column names produced
from the source header — for the plain script (which always succeeds) and
for the enhanced script (whatever the outcome of its index statements). -/
theorem C4_table_columns_match (db : Option PgTable) (cutoff : DateTime)
    (rawHeaders : List String) (rows : List (List String)) :
    (∀ t, pgRunPlain db cutoff (rawHeaders.map snake_case) rows = some t →
        t.cols = rawHeaders.map snake_case) ∧
    (∀ t, execScript db (create_table_sql_enhanced (rawHeaders.map snake_case))
        = some (some t) → t.cols = rawHeaders.map snake_case) := by
  constructor
  · intro t ht
    rw [pgRunPlain_eq] at ht
    cases ht
    rfl
  · intro t ht
    have hred : execScript db (create_table_sql_enhanced (rawHeaders.map snake_case))
        = execScript (some ⟨rawHeaders.map snake_case, [], []⟩)
            [.createIndexIfNotExists "idx_lobby_staging_reg_id" "reg_id_enr",
             .createIndexIfNotExists "idx_lobby_staging_country" "country_pays"] := rfl
    rw [hred] at ht
    exact execScript_indexes_cols _ (by
      intro st hst
      simp only [List.mem_cons, List.not_mem_nil, or_false] at hst
      rcases hst with h | h
      · exact ⟨"idx_lobby_staging_reg_id", "reg_id_enr", h⟩
      · exact ⟨"idx_lobby_staging_country", "country_pays", h⟩) _ t ht

/-- Witness for C4 at concrete inputs: raw headers `"Reg ID-Enr"` and
`"Country/Pays"` normalize to `reg_id_enr`, `country_pays`; the enhanced
script creates a table whose column list is exactly those normalized names
in order. -/
theorem C4_witness :
    (⟨["reg_id_enr", "country_pays"], [],
        ["idx_lobby_staging_reg_id", "idx_lobby_staging_country"]⟩ : PgTable).cols
      = ["Reg ID-Enr", "Country/Pays"].map snake_case :=
  (C4_table_columns_match none ⟨2024, 1, 1, 0⟩ ["Reg ID-Enr", "Country/Pays"] []).2
    ⟨["reg_id_enr", "country_pays"], [],
      ["idx_lobby_staging_reg_id", "idx_lobby_staging_country"]⟩ (by decide)

/-- Claim C5 counterexample: for the header list `["foo"]` — which lacks
`reg_id_enr` and `country_pays` — the enhanced creation script still
contains the index statement on `reg_id_enr` (index creation is NOT guarded
by column presence), and executing the script fails (the `CREATE INDEX`
references an undefined column), so table creation does not succeed.  This
refutes both halves of the claim as stated. -/
theorem C5_counterexample :
    (SqlStmt.createIndexIfNotExists "idx_lobby_staging_reg_id" "reg_id_enr"
        ∈ create_table_sql_enhanced ["foo"]) ∧
    ("reg_id_enr" ∉ (["foo"] : List String)) ∧
    execScript none (create_table_sql_enhanced ["foo"]) = none := by
  refine ⟨by decide, by decide, by decide⟩

/-- Claim C5 (amended): the loader emits the two `CREATE INDEX IF NOT
EXISTS` statements on `reg_id_enr` and `country_pays` unconditionally, for
every column set.  When both columns are present the script succeeds and
creates the table with exactly those two indexes; when `reg_id_enr` is
absent (or `country_pays` is absent) the script fails with a SQL error and
no table creation takes effect for that run. -/
theorem C5_amended_indexes_unconditional (db : Option PgTable) (hs : List String) :
    (SqlStmt.createIndexIfNotExists "idx_lobby_staging_reg_id" "reg_id_enr"
        ∈ create_table_sql_enhanced hs ∧
     SqlStmt.createIndexIfNotExists "idx_lobby_staging_country" "country_pays"
        ∈ create_table_sql_enhanced hs) ∧
    ("reg_id_enr" ∈ hs → "country_pays" ∈ hs →
      execScript db (create_table_sql_enhanced hs)
        = some (some ⟨hs, [], ["idx_lobby_staging_reg_id", "idx_lobby_staging_country"]⟩)) ∧
    ("reg_id_enr" ∉ hs →
      execScript db (create_table_sql_enhanced hs) = none) ∧
    ("country_pays" ∉ hs →
      execScript db (create_table_sql_enhanced hs) = none) := by
  have hred : execScript db (create_table_sql_enhanced hs)
      = execScript (some ⟨hs, [], []⟩)
          [.createIndexIfNotExists "idx_lobby_staging_reg_id" "reg_id_enr",
           .createIndexIfNotExists "idx_lobby_staging_country" "country_pays"] := rfl
  refine ⟨⟨by simp [create_table_sql_enhanced], by simp [create_table_sql_enhanced]⟩, ?_, ?_, ?_⟩
  · intro h1 h2
    rw [hred]
    simp only [execScript, execStmt]
    rw [if_pos h1, if_neg (by simp)]
    dsimp only
    rw [if_pos h2, if_neg (by simp)]
    simp
  · intro h1
    rw [hred]
    simp only [execScript, execStmt]
    rw [if_neg h1]
  · intro h2
    rw [hred]
    simp only [execScript, execStmt]
    by_cases h1 : "reg_id_enr" ∈ hs
    · rw [if_pos h1, if_neg (by simp)]
      dsimp only
      rw [if_neg h2]
    · rw [if_neg h1]

/-- Witness for the amended C5: with both well-known columns present the
script succeeds and creates both indexes; with the columns absent it fails. -/
theorem C5_amended_witness :
    execScript none (create_table_sql_enhanced ["reg_id_enr", "country_pays"])
      = some (some ⟨["reg_id_enr", "country_pays"], [],
          ["idx_lobby_staging_reg_id", "idx_lobby_staging_country"]⟩) ∧
    execScript none (create_table_sql_enhanced ["foo"]) = none :=
  ⟨(C5_amended_indexes_unconditional none ["reg_id_enr", "country_pays"]).2.1
      (by decide) (by decide),
   (C5_amended_indexes_unconditional none ["foo"]).2.2.1 (by decide)⟩

/-! ## The REST loader
(src/etl/lobbying_rest.py: `SupabaseClient`, `setup_staging_table`,
`stream_to_supabase_rest`; the batching loop is the same in
`ConnectionManager._insert_data_rest` of lobbying_enhanced.py) -/

/-- `BATCH_SIZE = 1000` of lobbying_rest.py and lobbying_enhanced.py. -/
def BATCH_SIZE : Nat := 1000

/-- One row as submitted over HTTP: the mapping
`{header: value for header, value in zip(headers, row)}`, modelled as the
association list `headers.zip row` (`zip` truncates to the shorter list,
as in Python). -/
def rowToDict (headers : List String) (row : List String) : List (String × String) :=
  headers.zip row

/-- Server-side state of the `lobby_staging` collection reached over REST. -/
structure RestTable where
  rows : List (List (String × String))
deriving DecidableEq

/-- The batching loop of `stream_to_supabase_rest`: `idx` numbers the
submissions, `t` is the server-side table (a successful `insert_batch`
appends the batch), `batch` is the list being accumulated, and `subs` is
the log of every batch submitted so far.  `server j` tells whether the
status of submission `j` is 2xx; a failing submission makes the process
exit with status 1 (first component of the result), leaving previously
applied batches in place — there is no rollback operation. -/
def streamLoop (server : Nat → Bool) (headers : List String) :
    Nat → RestTable → List (List (String × String)) →
    List (List (List (String × String))) → List (List String) →
    Nat × RestTable × List (List (List (String × String)))
  | idx, t, batch, subs, [] =>
    if batch.isEmpty then (0, t, subs)
    else if server idx then (0, ⟨t.rows ++ batch⟩, subs ++ [batch])
    else (1, t, subs ++ [batch])
  | idx, t, batch, subs, row :: rest =>
    let b := batch ++ [rowToDict headers row]
    if BATCH_SIZE ≤ b.length then
      (if server idx then streamLoop server headers (idx + 1) ⟨t.rows ++ b⟩ [] (subs ++ [b]) rest
      else (1, t, subs ++ [b]))
    else streamLoop server headers idx t b subs rest

/-- Embedding of the delivery part of `stream_to_supabase_rest`: stream the
(already filtered) rows to the server in batches. -/
def stream_to_supabase_rest (server : Nat → Bool) (headers : List String)
    (t : RestTable) (rows : List (List String)) :
    Nat × RestTable × List (List (List (String × String))) :=
  streamLoop server headers 0 t [] [] rows

/-- Embedding of `setup_staging_table` (src/etl/lobbying_rest.py lines
248-270): if the table exists it is left untouched (no drop, no clear); if
it does not exist the script prints the DDL for manual execution and exits
with status 1 without creating anything. -/
def setup_staging_table (db : Option RestTable) : Nat × Option RestTable :=
  match db with
  | some t => (0, some t)
  | none => (1, none)

/-- Embedding of `SupabaseClient.clear_table` (src/etl/lobbying_rest.py
lines 223-231): it returns `True` and performs no deletion (the body is a
single `return True` behind a comment saying the table should be cleared
manually); it is moreover never called by the run. -/
def clear_table (db : Option RestTable) : Bool × Option RestTable :=
  (true, db)

/-- One run of the REST variant after extraction: check the table, then
stream the filtered rows. -/
def restRun (db : Option RestTable) (server : Nat → Bool) (headers : List String)
    (rows : List (List String)) : Nat × Option RestTable :=
  match setup_staging_table db with
  | (0, some t) =>
    let r := stream_to_supabase_rest server headers t rows
    (r.1, some r.2.1)
  | _ => (1, none)

theorem streamLoop_spec (server : Nat → Bool) (headers : List String) :
    ∀ (rows : List (List String)) (idx : Nat) (t : RestTable)
      (batch : List (List (String × String)))
      (subs : List (List (List (String × String)))),
      batch.length < BATCH_SIZE →
      ∃ nw,
        (streamLoop server headers idx t batch subs rows).2.2 = subs ++ nw ∧
        (∀ b ∈ nw.dropLast, b.length = BATCH_SIZE) ∧
        ((streamLoop server headers idx t batch subs rows).1 = 0 ∨
          (streamLoop server headers idx t batch subs rows).1 = 1) ∧
        ((streamLoop server headers idx t batch subs rows).1 = 0 →
          (streamLoop server headers idx t batch subs rows).2.1.rows
              = t.rows ++ nw.flatten ∧
          (∀ k, k < nw.length → server (idx + k) = true)) ∧
        ((streamLoop server headers idx t batch subs rows).1 = 1 →
          (streamLoop server headers idx t batch subs rows).2.1.rows
              = t.rows ++ nw.dropLast.flatten ∧
          nw ≠ [] ∧ server (idx + (nw.length - 1)) = false ∧
          (∀ k, k + 1 < nw.length → server (idx + k) = true)) := by
  intro rows
  induction rows with
  | nil =>
    intro idx t batch subs hlen
    by_cases hb : batch.isEmpty
    · have hred : streamLoop server headers idx t batch subs [] = (0, t, subs) := by
        simp only [streamLoop, if_pos hb]
      refine ⟨[], ?_⟩
      rw [hred]
      exact ⟨by simp, by simp, Or.inl rfl,
        fun _ => ⟨by simp, fun k hk => by simp at hk⟩,
        fun h => absurd h (by simp)⟩
    · cases hs : server idx with
      | true =>
        have hred : streamLoop server headers idx t batch subs []
            = (0, ⟨t.rows ++ batch⟩, subs ++ [batch]) := by
          simp only [streamLoop, if_neg hb, hs, if_true]
        refine ⟨[batch], ?_⟩
        rw [hred]
        refine ⟨rfl, by simp, Or.inl rfl, fun _ => ⟨by simp, ?_⟩,
          fun h => absurd h (by simp)⟩
        intro k hk
        have hk0 : k = 0 := by
          simp only [List.length_singleton] at hk
          omega
        rw [hk0, Nat.add_zero]
        exact hs
      | false =>
        have hred : streamLoop server headers idx t batch subs []
            = (1, t, subs ++ [batch]) := by
          simp only [streamLoop, if_neg hb, hs]
          rw [if_neg (by simp)]
        refine ⟨[batch], ?_⟩
        rw [hred]
        refine ⟨rfl, by simp, Or.inr rfl, fun h => absurd h (by simp), fun _ => ?_⟩
        refine ⟨by simp, by simp, ?_, fun k hk => by simp at hk⟩
        simpa using hs
  | cons row rest ih =>
    intro idx t batch subs hlen
    by_cases hfull : BATCH_SIZE ≤ (batch ++ [rowToDict headers row]).length
    · have hblen : (batch ++ [rowToDict headers row]).length = BATCH_SIZE := by
        simp only [List.length_append, List.length_singleton] at hfull ⊢
        omega
      cases hs : server idx with
      | true =>
        obtain ⟨nw2, h1, h2, h3, h4, h5⟩ :=
          ih (idx + 1) ⟨t.rows ++ (batch ++ [rowToDict headers row])⟩ []
            (subs ++ [batch ++ [rowToDict headers row]]) (by simp [BATCH_SIZE])
        have hred : streamLoop server headers idx t batch subs (row :: rest)
            = streamLoop server headers (idx + 1) ⟨t.rows ++ (batch ++ [rowToDict headers row])⟩
                [] (subs ++ [batch ++ [rowToDict headers row]]) rest := by
          simp only [streamLoop, if_pos hfull, hs, if_true]
        refine ⟨(batch ++ [rowToDict headers row]) :: nw2, ?_⟩
        rw [hred]
        refine ⟨by rw [h1]; simp, ?_, h3, ?_, ?_⟩
        · intro b hb
          cases hnw2 : nw2 with
          | nil =>
            rw [hnw2] at hb
            simp at hb
          | cons y ys =>
            rw [hnw2] at hb
            simp only [List.dropLast_cons₂, List.mem_cons] at hb
            rcases hb with hb | hb
            · rw [hb, hblen]
            · exact h2 b (by rw [hnw2]; simpa using hb)
        · intro h0
          obtain ⟨he, hk⟩ := h4 h0
          refine ⟨by rw [he]; simp, ?_⟩
          intro k hk2
          cases k with
          | zero => simpa using hs
          | succ j =>
            have := hk j (by simpa using hk2)
            rw [show idx + 1 + j = idx + (j + 1) from by omega] at this
            exact this
        · intro h1c
          obtain ⟨he, hne, hsf, hk⟩ := h5 h1c
          have hlen2 : 1 ≤ nw2.length := by
            cases nw2 with
            | nil => exact absurd rfl hne
            | cons y ys => simp
          refine ⟨?_, by simp, ?_, ?_⟩
          · rw [he]
            cases nw2 with
            | nil => exact absurd rfl hne
            | cons y ys => simp [List.dropLast_cons₂, List.append_assoc]
          · have harith : idx + (((batch ++ [rowToDict headers row]) :: nw2).length - 1)
                = idx + 1 + (nw2.length - 1) := by
              simp only [List.length_cons]
              omega
            rw [harith]
            exact hsf
          · intro k hk2
            cases k with
            | zero => simpa using hs
            | succ j =>
              have := hk j (by simp only [List.length_cons] at hk2; omega)
              rw [show idx + 1 + j = idx + (j + 1) from by omega] at this
              exact this
      | false =>
        have hred : streamLoop server headers idx t batch subs (row :: rest)
            = (1, t, subs ++ [batch ++ [rowToDict headers row]]) := by
          simp only [streamLoop, if_pos hfull, hs]
          rw [if_neg (by simp)]
        refine ⟨[batch ++ [rowToDict headers row]], ?_⟩
        rw [hred]
        refine ⟨rfl, by simp, Or.inr rfl, fun h => absurd h (by simp), fun _ => ?_⟩
        refine ⟨by simp, by simp, ?_, fun k hk => by simp at hk⟩
        simpa using hs
    · have hred : streamLoop server headers idx t batch subs (row :: rest)
          = streamLoop server headers idx t (batch ++ [rowToDict headers row]) subs rest := by
        simp only [streamLoop, if_neg hfull]
      obtain ⟨nw2, h1, h2, h3, h4, h5⟩ :=
        ih idx t (batch ++ [rowToDict headers row]) subs
          (by simp only [List.length_append, List.length_singleton] at hfull ⊢; omega)
      refine ⟨nw2, ?_⟩
      rw [hred]
      exact ⟨h1, h2, h3, h4, h5⟩

/-- Claim C3: in the HTTP batched-insert delivery every submitted batch
except possibly the last holds exactly `BATCH_SIZE = 1000` row mappings; a
non-2xx status on any submitted batch makes the run exit with status 1; and
on such an exit the server-side table still holds the rows of every batch
submitted before the failing one appended in order — nothing is rolled
back (the model has no rollback operation, and the failing batch is always
the last submitted one). -/
theorem C3_http_batched_insert (server : Nat → Bool) (headers : List String)
    (t0 : RestTable) (rows : List (List String)) :
    (∀ b ∈ (stream_to_supabase_rest server headers t0 rows).2.2.dropLast,
        b.length = BATCH_SIZE) ∧
    ((∃ j, j < (stream_to_supabase_rest server headers t0 rows).2.2.length ∧
        server j = false) →
      (stream_to_supabase_rest server headers t0 rows).1 = 1) ∧
    ((stream_to_supabase_rest server headers t0 rows).1 = 1 →
      (stream_to_supabase_rest server headers t0 rows).2.1.rows
        = t0.rows ++ (stream_to_supabase_rest server headers t0 rows).2.2.dropLast.flatten) := by
  obtain ⟨nw, h1, h2, h3, h4, h5⟩ :=
    streamLoop_spec server headers rows 0 t0 [] [] (by simp [BATCH_SIZE])
  have hnw : (streamLoop server headers 0 t0 [] [] rows).2.2 = nw := by
    rw [h1]
    simp
  simp only [stream_to_supabase_rest]
  refine ⟨?_, ?_, ?_⟩
  · rw [hnw]
    exact h2
  · rintro ⟨j, hj, hjf⟩
    rcases h3 with h0 | h1c
    · exfalso
      obtain ⟨_, hk⟩ := h4 h0
      rw [hnw] at hj
      have := hk j hj
      rw [Nat.zero_add] at this
      rw [this] at hjf
      exact absurd hjf (by simp)
    · exact h1c
  · intro hc
    obtain ⟨he, _⟩ := h5 hc
    rw [hnw]
    exact he

/-- Witness for C3 at concrete inputs: a single-row stream whose only
submission gets a non-2xx status exits with status 1. -/
theorem C3_witness :
    (stream_to_supabase_rest (fun _ => false) ["c"] ⟨[]⟩ [["A"]]).1 = 1 :=
  (C3_http_batched_insert (fun _ => false) ["c"] ⟨[]⟩ [["A"]]).2.1
    ⟨0, by decide, rfl⟩

/-- Claim C2 counterexample: in the REST variant the staging table is not
dropped, recreated or cleared.  Starting a run with a table already holding
the row mapping `("reg_id_enr", "OLD")` from a previous run and loading one
new row leaves the old row in place — the final table holds both rows, so
loading is additive there and the claim "in every variant" is false.  The
`clear_table` method returns success while changing nothing (and is never
invoked by the run). -/
theorem C2_counterexample :
    (restRun (some ⟨[[("reg_id_enr", "OLD")]]⟩) (fun _ => true)
        ["reg_id_enr"] [["NEW"]]).2
      = some ⟨[[("reg_id_enr", "OLD")], [("reg_id_enr", "NEW")]]⟩ ∧
    clear_table (some ⟨[[("reg_id_enr", "OLD")]]⟩)
      = (true, some ⟨[[("reg_id_enr", "OLD")]]⟩) := by
  refine ⟨by decide, rfl⟩

/-- Claim C2 (amended): in the direct-PostgreSQL variants the staging table
is dropped and recreated at the start of the run, so afterwards it holds
exactly the rows accepted by that run (none from any previous run); the
REST variant instead only checks that the table exists — exiting with
status 1 and creating nothing when it does not — and its loading appends to
whatever rows the table already holds, so rows from previous runs survive
there. -/
theorem C2_amended_full_refresh (db : Option PgTable) (cutoff : DateTime)
    (headers : List String) (rows : List (List String))
    (t : RestTable) (server : Nat → Bool) (headers2 : List String)
    (rows2 : List (List String)) :
    pgRunPlain db cutoff headers rows
      = some ⟨headers, filter_recent_rows cutoff headers rows, []⟩ ∧
    (∃ appended, (restRun (some t) server headers2 rows2).2
        = some ⟨t.rows ++ appended⟩) ∧
    restRun none server headers2 rows2 = (1, none) := by
  refine ⟨pgRunPlain_eq db cutoff headers rows, ?_, rfl⟩
  obtain ⟨nw, h1, h2, h3, h4, h5⟩ :=
    streamLoop_spec server headers2 rows2 0 t [] [] (by simp [BATCH_SIZE])
  have hr : (restRun (some t) server headers2 rows2).2
      = some (streamLoop server headers2 0 t [] [] rows2).2.1 := rfl
  rcases h3 with h0 | h1c
  · obtain ⟨he, _⟩ := h4 h0
    refine ⟨nw.flatten, ?_⟩
    rw [hr, ← he]
  · obtain ⟨he, _⟩ := h5 h1c
    refine ⟨nw.dropLast.flatten, ?_⟩
    rw [hr, ← he]

/-! ## Encoding fallback of the enhanced/REST `filter_recent_rows` (C9)

The generator computes the date column, then inside
`for encoding in [utf-8, latin1, cp1252, iso-8859-1]` opens the
file and yields filtered rows; a `UnicodeDecodeError` raised while reading
a later line is caught and the loop continues with the next encoding,
re-reading the file from the top.  Rows yielded before the error were
already consumed downstream.  (In CPython the decode error surfaces when
the buffered chunk holding the offending byte is read; the line-by-line
model below matches files whose offending byte sits in a later chunk than
the rows yielded before it.) -/

inductive Enc where
  | utf8
  | latin1
  | cp1252
  | iso8859_1
deriving DecidableEq

def isContByte (b : Nat) : Bool :=
  128 ≤ b && b ≤ 191

/-- UTF-8 decoder over byte values (lead-byte ranges of RFC 3629;
continuation bytes 0x80-0xBF; the finer overlong/surrogate exclusions are
not needed by the bytes any claim touches). -/
def utf8Decode : List Nat → Option (List Char)
  | [] => some []
  | b :: bs =>
    if b < 128 then (utf8Decode bs).map (fun cs => Char.ofNat b :: cs)
    else if 194 ≤ b && b ≤ 223 then
      match bs with
      | c1 :: bs2 =>
        if isContByte c1 then
          (utf8Decode bs2).map (fun cs => Char.ofNat ((b - 192) * 64 + (c1 - 128)) :: cs)
        else none
      | [] => none
    else if 224 ≤ b && b ≤ 239 then
      match bs with
      | c1 :: c2 :: bs3 =>
        if isContByte c1 && isContByte c2 then
          (utf8Decode bs3).map
            (fun cs => Char.ofNat (((b - 224) * 64 + (c1 - 128)) * 64 + (c2 - 128)) :: cs)
        else none
      | _ => none
    else if 240 ≤ b && b ≤ 244 then
      match bs with
      | c1 :: c2 :: c3 :: bs4 =>
        if isContByte c1 && isContByte c2 && isContByte c3 then
          (utf8Decode bs4).map
            (fun cs => Char.ofNat
              ((((b - 240) * 64 + (c1 - 128)) * 64 + (c2 - 128)) * 64 + (c3 - 128)) :: cs)
        else none
      | _ => none
    else none

/-- latin1 maps every byte to the character of the same code point and
never fails. -/
def latin1Decode (bs : List Nat) : Option (List Char) :=
  some (bs.map Char.ofNat)

/-- cp1252 rejects its five unmapped bytes; decoded characters are modelled
by code point (the C1-region remapping is immaterial here — this decoder
is unreachable because latin1 never fails). -/
def cp1252Decode (bs : List Nat) : Option (List Char) :=
  if bs.any (fun b => b == 129 || b == 141 || b == 143 || b == 144 || b == 157) then none
  else some (bs.map Char.ofNat)

def iso8859Decode (bs : List Nat) : Option (List Char) :=
  some (bs.map Char.ofNat)

def decodeLine : Enc → List Nat → Option (List Char)
  | .utf8 => utf8Decode
  | .latin1 => latin1Decode
  | .cp1252 => cp1252Decode
  | .iso8859_1 => iso8859Decode

/-- The candidate encoding list: utf-8, latin1, cp1252, iso-8859-1. -/
def encodingOrder : List Enc :=
  [.utf8, .latin1, .cp1252, .iso8859_1]

/-- Line-by-line decoding of the file under one encoding: the decoded
prefix before the first undecodable line, and whether the whole file
decoded. -/
def decodeFileLines (e : Enc) : List (List Nat) → List (List Char) × Bool
  | [] => ([], true)
  | l :: ls =>
    match decodeLine e l with
    | none => ([], false)
    | some cs =>
      let r := decodeFileLines e ls
      (cs :: r.1, r.2)

/-- Comma splitting (model of `csv.reader` for unquoted fields). -/
def splitComma : List Char → List (List Char)
  | [] => [[]]
  | c :: rest =>
    match splitComma rest with
    | [] => [[]]
    | f :: fs => if c = ',' then [] :: f :: fs else (c :: f) :: fs

def parseCsvLine (l : List Char) : List String :=
  (splitComma l).map (fun f => ⟨f⟩)

/-- One attempt of the encoding loop: decode, skip the header line, filter
the rows that decoded before any error; the flag reports whether the whole
file decoded under this encoding. -/
def filterAttempt (cutoff : DateTime) (headers : List String) (e : Enc)
    (file : List (List Nat)) : List (List String) × Bool :=
  let d := decodeFileLines e file
  let dataRows := (d.1.drop 1).map parseCsvLine
  (match findDateCol headers with
   | none => dataRows
   | some i => (filterLoop cutoff i dataRows).1, d.2)

/-- The encoding fallback loop: rows yielded by a failed attempt have
already been consumed downstream; the generator then restarts from the top
of the file with the next candidate encoding. -/
def encLoop (cutoff : DateTime) (headers : List String) (file : List (List Nat)) :
    List Enc → List (List String)
  | [] => []
  | e :: es =>
    let a := filterAttempt cutoff headers e file
    if a.2 then a.1 else a.1 ++ encLoop cutoff headers file es

/-- Embedding of `filter_recent_rows` from lobbying_enhanced.py /
lobbying_rest.py: the total sequence of rows the generator yields across
encoding attempts. -/
def filter_recent_rows_enc (cutoff : DateTime) (headers : List String)
    (file : List (List Nat)) : List (List String) :=
  encLoop cutoff headers file encodingOrder

/-- Byte content of an ASCII line. -/
def asciiBytes (s : String) : List Nat :=
  s.data.map Char.toNat

/-- Claim C9: there is a CSV input whose header decodes under the first
candidate encoding (utf-8) but which holds a later invalid byte (0xE9
standing alone), for which the enhanced/REST row filter yields a data row
twice: the first (utf-8) attempt yields the row `["2099-01-01"]` and then
dies on the bad line; the generator restarts under latin1 and yields the
same row again, followed by the row decoded from the bad byte. -/
theorem C9_encoding_restart_duplicates :
    (decodeLine Enc.utf8 (asciiBytes "effective_date")).isSome = true ∧
    decodeLine Enc.utf8 [233] = none ∧
    filter_recent_rows_enc ⟨2024, 1, 1, 0⟩ ["effective_date"]
        [asciiBytes "effective_date", asciiBytes "2099-01-01", [233]]
      = [["2099-01-01"], ["2099-01-01"], ["é"]] ∧
    2 ≤ (filter_recent_rows_enc ⟨2024, 1, 1, 0⟩ ["effective_date"]
        [asciiBytes "effective_date", asciiBytes "2099-01-01", [233]]).count ["2099-01-01"] := by
  refine ⟨by decide, by decide, by decide, by decide⟩
